import Mathlib

/-!
Verification of the kernel / Gram-matrix core of the ml-project repository
(src/kernel.cpp, src/model.h).

Matrices (Eigen `MatrixXd`) are embedded as a pair of dimensions together
with a total entry function; doubles are idealised as exact rationals
(reals where the Gaussian and polynomial kernels need `exp` and real
powers).  Columns are the sample vectors, as in the source.  The fallible
`gram_matrix` (which throws `invalid_argument` on a row-count mismatch)
is embedded in `Except String`.
-/

namespace MLProj

/-- Embedding of Eigen `MatrixXd`: dimensions plus a total entry function.
Only entries with `i < rows`, `j < cols` correspond to real storage. -/
structure MatrixG (α : Type) where
  rows : ℕ
  cols : ℕ
  entry : ℕ → ℕ → α

/-- Eigen `size()`: total number of coefficients. -/
def MatrixG.size {α : Type} (A : MatrixG α) : ℕ := A.rows * A.cols

/-- Column `j` of the matrix, as a vector (Eigen `A.col(j)`). -/
def MatrixG.col {α : Type} (A : MatrixG α) (j : ℕ) : ℕ → α := fun i => A.entry i j

/-- A kernel function: takes the common dimension of the two column
vectors and the two vectors, returns a scalar (the virtual `k` of the
`kernel` class). -/
def Kern (α : Type) : Type := ℕ → (ℕ → α) → (ℕ → α) → α

/-- The message thrown by `kernel::gram_matrix` on a row-count mismatch. -/
def dimMismatchMsg : String :=
  "to compute a Gram Matrix both input matrices must have the same number of rows."

/-- Embedding of `kernel::gram_matrix(const MatrixXd &X, const MatrixXd &Y)`:
throws when `X.rows() != Y.rows()`, otherwise returns the `M×N` matrix
whose `(i,j)` entry is `k(X.col(i), Y.col(j))` with `M = X.cols()`,
`N = Y.cols()`. -/
def gram_matrix {α : Type} (k : Kern α) (X Y : MatrixG α) : Except String (MatrixG α) :=
  if X.rows ≠ Y.rows then
    .error dimMismatchMsg
  else
    .ok ⟨X.cols, Y.cols, fun i j => k X.rows (X.col i) (Y.col j)⟩

/-- Eigen's scalar product `x.transpose() * y` over vectors of length `d`,
accumulated coordinate by coordinate. -/
def dotProd {α : Type} [Field α] : ℕ → (ℕ → α) → (ℕ → α) → α
  | 0, _, _ => 0
  | n + 1, x, y => dotProd n x y + x n * y n

/-- Embedding of `linear_kernel::k`: `x·y + c` with bias `c` (member `_c`). -/
def linear_k {α : Type} [Field α] (c : α) : Kern α :=
  fun d x y => dotProd d x y + c

/-- The row index of the coefficient at column-major linear index `l`
(Eigen `result(l)` on the default column-major storage): `l % rows`. -/
def MatrixG.linRow {α : Type} (A : MatrixG α) (l : ℕ) : ℕ := l % A.rows

/-- The column index of the coefficient at column-major linear index `l`:
`l / rows`. -/
def MatrixG.linCol {α : Type} (A : MatrixG α) (l : ℕ) : ℕ := l / A.rows

/-- Embedding of the body of `kernel::gram_matrix_stable` after the plain
Gram matrix has been computed: the four-way shape dispatch that adds the
`stability = 1e-3` constant.  Branches, in source order:
1. `size() == 1 && result(0,0) == 1` : add `1e-3` to the single entry;
2. `rows() > 1 && cols() > 1` : add `1e-3 * Identity(rows, cols)`;
3. `(cols() == 1 || rows() == 1) && result(size()-1) == 1` : add `1e-3`
   to the entry at linear index `size()-1` (the last coefficient);
4. otherwise: return the Gram matrix unmodified. -/
def stabilize {α : Type} [Field α] [DecidableEq α] (result : MatrixG α) : MatrixG α :=
  let stability : α := 1 / 1000
  if result.size = 1 ∧ result.entry 0 0 = 1 then
    ⟨result.rows, result.cols, fun i j =>
      if i = 0 ∧ j = 0 then result.entry 0 0 + stability else result.entry i j⟩
  else if 1 < result.rows ∧ 1 < result.cols then
    ⟨result.rows, result.cols, fun i j =>
      result.entry i j + stability * (if i = j then 1 else 0)⟩
  else if (result.cols = 1 ∨ result.rows = 1) ∧
      result.entry (result.linRow (result.size - 1)) (result.linCol (result.size - 1)) = 1 then
    ⟨result.rows, result.cols, fun i j =>
      if i = result.linRow (result.size - 1) ∧ j = result.linCol (result.size - 1) then
        result.entry i j + stability
      else result.entry i j⟩
  else
    result

/-- Embedding of `kernel::gram_matrix_stable(const MatrixXd &X, const MatrixXd &Y)`:
the plain Gram matrix followed by the stabilisation dispatch. -/
def gram_matrix_stable {α : Type} [Field α] [DecidableEq α] (k : Kern α)
    (X Y : MatrixG α) : Except String (MatrixG α) :=
  (gram_matrix k X Y).map stabilize

/-- C1: for matrices with equal row count `d`, `gram_matrix` succeeds and
returns an `X.cols × Y.cols` matrix whose `(i,j)` entry is the kernel of
column `i` of `X` and column `j` of `Y`, for all in-range `i`, `j`. -/
theorem gram_matrix_entry_spec {α : Type} (k : Kern α) (X Y : MatrixG α)
    (h : X.rows = Y.rows) :
    ∃ R : MatrixG α, gram_matrix k X Y = .ok R ∧
      R.rows = X.cols ∧ R.cols = Y.cols ∧
      ∀ i j, i < X.cols → j < Y.cols →
        R.entry i j = k X.rows (X.col i) (Y.col j) := by
  refine ⟨⟨X.cols, Y.cols, fun i j => k X.rows (X.col i) (Y.col j)⟩, ?_, rfl, rfl, ?_⟩
  · simp [gram_matrix, h]
  · intro i j _ _
    rfl

/-- Witness for C1: a concrete instance, `X` a 2×2 identity-like matrix,
`Y` a 2×1 column, linear kernel with bias `0`. -/
theorem gram_matrix_entry_spec_witness :
    (MatrixG.mk 2 2 (fun i j => if i = j then (1 : ℚ) else 0)).rows =
      (MatrixG.mk 2 1 (fun _ _ => (1 : ℚ))).rows ∧
    ∃ R : MatrixG ℚ,
      gram_matrix (linear_k 0) (MatrixG.mk 2 2 (fun i j => if i = j then (1 : ℚ) else 0))
        (MatrixG.mk 2 1 (fun _ _ => (1 : ℚ))) = .ok R ∧
      R.rows = 2 ∧ R.cols = 1 ∧
      ∀ i j, i < 2 → j < 1 →
        R.entry i j = linear_k 0 2
          ((MatrixG.mk 2 2 (fun i j => if i = j then (1 : ℚ) else 0)).col i)
          ((MatrixG.mk 2 1 (fun _ _ => (1 : ℚ))).col j) :=
  ⟨rfl, gram_matrix_entry_spec (linear_k 0) _ _ rfl⟩

/-- The in-range entries of a matrix, row by row, for concrete checks. -/
def entriesList {α : Type} (A : MatrixG α) : List (List α) :=
  (List.range A.rows).map (fun i => (List.range A.cols).map (fun j => A.entry i j))

/-- With equal row counts `gram_matrix` reduces to the entry-wise kernel map. -/
theorem gram_eq_ok {α : Type} (k : Kern α) (X Y : MatrixG α) (h : X.rows = Y.rows) :
    gram_matrix k X Y = .ok ⟨X.cols, Y.cols, fun i j => k X.rows (X.col i) (Y.col j)⟩ := by
  simp [gram_matrix, h]

/-- With equal row counts `gram_matrix_stable` is `stabilize` of the Gram matrix. -/
theorem gram_stable_eq_ok {α : Type} [Field α] [DecidableEq α]
    (k : Kern α) (X Y : MatrixG α) (h : X.rows = Y.rows) :
    gram_matrix_stable k X Y =
      .ok (stabilize ⟨X.cols, Y.cols, fun i j => k X.rows (X.col i) (Y.col j)⟩) := by
  simp [gram_matrix_stable, gram_eq_ok k X Y h, Except.map]

/-- On a result with more than one row and more than one column,
`stabilize` takes the second branch: add `1e-3` on the main diagonal. -/
theorem stabilize_branch_square {α : Type} [Field α] [DecidableEq α]
    (R : MatrixG α) (hr : 1 < R.rows) (hc : 1 < R.cols) :
    stabilize R = ⟨R.rows, R.cols, fun i j =>
      R.entry i j + (1 / 1000 : α) * (if i = j then 1 else 0)⟩ := by
  have hsz : R.size ≠ 1 := by
    have h4 : 2 * 2 ≤ R.rows * R.cols := Nat.mul_le_mul hr hc
    simp only [MatrixG.size]
    omega
  rw [stabilize]
  split_ifs with h1 h2
  · exact absurd h1.1 hsz
  · rfl
  · exact absurd ⟨hr, hc⟩ h2
  · exact absurd ⟨hr, hc⟩ h2

/-- C2: `gram_matrix` and `gram_matrix_stable` fail with the
dimension-mismatch error exactly when the row counts differ; the
dimension mismatch is the only possible error, an error carries no
result, and with equal row counts both operations succeed. -/
theorem gram_dim_mismatch_iff {α : Type} [Field α] [DecidableEq α]
    (k : Kern α) (X Y : MatrixG α) :
    (gram_matrix k X Y = .error dimMismatchMsg ↔ X.rows ≠ Y.rows) ∧
    (gram_matrix_stable k X Y = .error dimMismatchMsg ↔ X.rows ≠ Y.rows) ∧
    (∀ e, gram_matrix k X Y = .error e → e = dimMismatchMsg) ∧
    (∀ e, gram_matrix_stable k X Y = .error e → e = dimMismatchMsg) ∧
    (X.rows = Y.rows →
      (∃ R, gram_matrix k X Y = .ok R) ∧ ∃ R, gram_matrix_stable k X Y = .ok R) := by
  by_cases h : X.rows = Y.rows
  · simp [gram_matrix, gram_matrix_stable, h, Except.map]
  · simp [gram_matrix, gram_matrix_stable, h, Except.map]

/-- Witness for C2: with 2-row vs 3-row inputs the dimension-mismatch
error is raised; with equal row counts `gram_matrix_stable` succeeds. -/
theorem gram_dim_mismatch_iff_witness :
    gram_matrix (linear_k (0 : ℚ)) (MatrixG.mk 2 1 (fun _ _ => 0))
        (MatrixG.mk 3 1 (fun _ _ => 0)) = .error dimMismatchMsg ∧
    ∃ R, gram_matrix_stable (linear_k (0 : ℚ)) (MatrixG.mk 2 1 (fun _ _ => 0))
        (MatrixG.mk 2 1 (fun _ _ => 0)) = .ok R :=
  ⟨(gram_dim_mismatch_iff (linear_k (0 : ℚ)) (MatrixG.mk 2 1 (fun _ _ => 0))
      (MatrixG.mk 3 1 (fun _ _ => 0))).1.mpr (by decide),
   ((gram_dim_mismatch_iff (linear_k (0 : ℚ)) (MatrixG.mk 2 1 (fun _ _ => 0))
      (MatrixG.mk 2 1 (fun _ _ => 0))).2.2.2.2 rfl).2⟩

/-- The concrete 2×2 matrix `[[1,0],[0,1]]` of the spec scenario: two
orthonormal 2-d vectors as columns. -/
def X0 : MatrixG ℚ := ⟨2, 2, fun i j => if i = j then 1 else 0⟩

/-- C3: with equal row counts and more than one column on each side,
`gram_matrix_stable` is `gram_matrix` plus `1e-3` on the main diagonal
and unchanged off the diagonal; concretely for `X0 = [[1,0],[0,1]]` and
a linear kernel with `c = 0`, the Gram matrix is the 2×2 identity and
the stabilised one is `[[1.001,0],[0,1.001]]`. -/
theorem gram_stable_square_diag {α : Type} [Field α] [DecidableEq α]
    (k : Kern α) (X Y : MatrixG α)
    (h : X.rows = Y.rows) (hM : 1 < X.cols) (hN : 1 < Y.cols) :
    (∃ G R, gram_matrix k X Y = .ok G ∧ gram_matrix_stable k X Y = .ok R ∧
      R.rows = X.cols ∧ R.cols = Y.cols ∧
      (∀ i j, i < X.cols → j < Y.cols → i = j →
        R.entry i j = G.entry i j + 1 / 1000) ∧
      (∀ i j, i < X.cols → j < Y.cols → i ≠ j →
        R.entry i j = G.entry i j)) ∧
    (gram_matrix (linear_k (0 : ℚ)) X0 X0).map entriesList = .ok [[1, 0], [0, 1]] ∧
    (gram_matrix_stable (linear_k (0 : ℚ)) X0 X0).map entriesList =
      .ok [[1001 / 1000, 0], [0, 1001 / 1000]] := by
  refine ⟨?_, ?_, ?_⟩
  case refine_2 =>
    norm_num [gram_matrix, entriesList, X0, linear_k, dotProd, MatrixG.col, Except.map,
      List.range_succ]
  case refine_3 =>
    norm_num [gram_matrix_stable, gram_matrix, stabilize, entriesList, X0, linear_k, dotProd,
      MatrixG.col, MatrixG.size, MatrixG.linRow, MatrixG.linCol, Except.map, List.range_succ]
  refine ⟨⟨X.cols, Y.cols, fun i j => k X.rows (X.col i) (Y.col j)⟩, _,
    gram_eq_ok k X Y h, gram_stable_eq_ok k X Y h, ?_⟩
  rw [stabilize_branch_square
    ⟨X.cols, Y.cols, fun i j => k X.rows (X.col i) (Y.col j)⟩ hM hN]
  refine ⟨rfl, rfl, ?_, ?_⟩
  · intro i j _ _ hij
    simp [hij]
  · intro i j _ _ hij
    simp [hij]

/-- Witness for C3: the general statement applied to the concrete
scenario `X0` with the linear kernel of bias `0`. -/
theorem gram_stable_square_diag_witness :
    X0.rows = X0.rows ∧ 1 < X0.cols ∧
    ((∃ G R, gram_matrix (linear_k (0 : ℚ)) X0 X0 = .ok G ∧
        gram_matrix_stable (linear_k (0 : ℚ)) X0 X0 = .ok R ∧
        R.rows = X0.cols ∧ R.cols = X0.cols ∧
        (∀ i j, i < X0.cols → j < X0.cols → i = j →
          R.entry i j = G.entry i j + 1 / 1000) ∧
        (∀ i j, i < X0.cols → j < X0.cols → i ≠ j →
          R.entry i j = G.entry i j)) ∧
      (gram_matrix (linear_k (0 : ℚ)) X0 X0).map entriesList = .ok [[1, 0], [0, 1]] ∧
      (gram_matrix_stable (linear_k (0 : ℚ)) X0 X0).map entriesList =
        .ok [[1001 / 1000, 0], [0, 1001 / 1000]]) :=
  ⟨rfl, by decide,
    gram_stable_square_diag (linear_k (0 : ℚ)) X0 X0 rfl (by decide) (by decide)⟩

/-- On a 1×1 result `stabilize` adds `1e-3` exactly when the sole entry
equals `1`, and leaves the matrix untouched otherwise (the `entry ≠ 1`
case falls through the row/column-vector branch into the final
pass-through branch). -/
theorem stabilize_one_one {α : Type} [Field α] [DecidableEq α]
    (R : MatrixG α) (hr : R.rows = 1) (hc : R.cols = 1) :
    (stabilize R).rows = 1 ∧ (stabilize R).cols = 1 ∧
    (stabilize R).entry 0 0 =
      (if R.entry 0 0 = 1 then R.entry 0 0 + 1 / 1000 else R.entry 0 0) := by
  have hsz : R.size = 1 := by simp [MatrixG.size, hr, hc]
  by_cases he : R.entry 0 0 = 1
  · rw [stabilize, if_pos ⟨hsz, he⟩]
    simp [hr, hc, he]
  · have hlast : R.entry (R.linRow (R.size - 1)) (R.linCol (R.size - 1)) ≠ 1 := by
      simpa [MatrixG.linRow, MatrixG.linCol, hsz, hr] using he
    rw [stabilize]
    split_ifs with h1 h2 h3
    · exact absurd h1.2 he
    · omega
    · exact absurd h3.2 hlast
    · simp [hr, hc, he]

/-- C4: when the Gram matrix is 1×1, `gram_matrix_stable` adds `1e-3` to
the single entry exactly when that entry equals `1.0`, and returns it
unchanged otherwise. -/
theorem gram_stable_one_one {α : Type} [Field α] [DecidableEq α]
    (k : Kern α) (X Y : MatrixG α)
    (h : X.rows = Y.rows) (hM : X.cols = 1) (hN : Y.cols = 1) :
    ∃ G R, gram_matrix k X Y = .ok G ∧ gram_matrix_stable k X Y = .ok R ∧
      R.rows = 1 ∧ R.cols = 1 ∧
      R.entry 0 0 =
        (if G.entry 0 0 = 1 then G.entry 0 0 + 1 / 1000 else G.entry 0 0) := by
  refine ⟨⟨X.cols, Y.cols, fun i j => k X.rows (X.col i) (Y.col j)⟩, _,
    gram_eq_ok k X Y h, gram_stable_eq_ok k X Y h, ?_⟩
  exact stabilize_one_one ⟨X.cols, Y.cols, fun i j => k X.rows (X.col i) (Y.col j)⟩ hM hN

/-- Witness for C4: the 1×1 statement applied to a concrete 1-d input
whose self Gram entry is `1` (linear kernel, bias `0`). -/
theorem gram_stable_one_one_witness :
    ∃ G R, gram_matrix (linear_k (0 : ℚ)) (MatrixG.mk 1 1 (fun _ _ => 1))
        (MatrixG.mk 1 1 (fun _ _ => 1)) = .ok G ∧
      gram_matrix_stable (linear_k (0 : ℚ)) (MatrixG.mk 1 1 (fun _ _ => 1))
        (MatrixG.mk 1 1 (fun _ _ => 1)) = .ok R ∧
      R.rows = 1 ∧ R.cols = 1 ∧
      R.entry 0 0 =
        (if G.entry 0 0 = 1 then G.entry 0 0 + 1 / 1000 else G.entry 0 0) :=
  gram_stable_one_one (linear_k (0 : ℚ)) (MatrixG.mk 1 1 (fun _ _ => 1))
    (MatrixG.mk 1 1 (fun _ _ => 1)) rfl rfl rfl

/-- For a row or column vector the coefficient at column-major linear
index `size - 1` is the entry at position `(rows - 1, cols - 1)`. -/
theorem lin_last_of_vec {α : Type} (R : MatrixG α)
    (hv : R.cols = 1 ∨ R.rows = 1) (hs : 1 < R.size) :
    R.linRow (R.size - 1) = R.rows - 1 ∧ R.linCol (R.size - 1) = R.cols - 1 := by
  rcases hv with hc | hr
  · have hrows : 1 < R.rows := by
      have h2 := hs
      simp [MatrixG.size, hc] at h2
      exact h2
    constructor
    · simp only [MatrixG.linRow, MatrixG.size, hc, mul_one]
      exact Nat.mod_eq_of_lt (by omega)
    · simp only [MatrixG.linCol, MatrixG.size, hc, mul_one]
      rw [Nat.div_eq_of_lt (by omega)]
  · constructor
    · simp [MatrixG.linRow, hr, Nat.mod_one]
    · simp [MatrixG.linCol, MatrixG.size, hr, Nat.div_one]

/-- On a row/column-vector result with more than one entry, `stabilize`
adds `1e-3` to the last coefficient exactly when it equals `1`, leaving
all other entries unchanged, and otherwise returns the matrix itself. -/
theorem stabilize_vec {α : Type} [Field α] [DecidableEq α]
    (R : MatrixG α) (hv : R.cols = 1 ∨ R.rows = 1) (hs : 1 < R.size) :
    (stabilize R).rows = R.rows ∧ (stabilize R).cols = R.cols ∧
    (R.entry (R.rows - 1) (R.cols - 1) = 1 →
      (stabilize R).entry (R.rows - 1) (R.cols - 1) =
        R.entry (R.rows - 1) (R.cols - 1) + 1 / 1000 ∧
      ∀ i j, ¬(i = R.rows - 1 ∧ j = R.cols - 1) →
        (stabilize R).entry i j = R.entry i j) ∧
    (R.entry (R.rows - 1) (R.cols - 1) ≠ 1 → stabilize R = R) := by
  obtain ⟨hlr, hlc⟩ := lin_last_of_vec R hv hs
  have hb2 : ¬(1 < R.rows ∧ 1 < R.cols) := by
    rcases hv with hc | hr
    · omega
    · omega
  by_cases he : R.entry (R.rows - 1) (R.cols - 1) = 1
  · rw [stabilize]
    split_ifs with h1 h2
    · exact absurd h1.1 (by omega)
    · refine ⟨rfl, rfl, fun _ => ⟨?_, ?_⟩, fun hne => absurd he hne⟩
      · simp [hlr, hlc]
      · intro i j hij
        simp only [hlr, hlc]
        rw [if_neg hij]
    · rw [hlr, hlc] at h2
      exact absurd ⟨hv, he⟩ h2
  · rw [stabilize]
    split_ifs with h1 h2
    · exact absurd h1.1 (by omega)
    · rw [hlr, hlc] at h2
      exact absurd h2.2 he
    · exact ⟨rfl, rfl, fun h1 => absurd h1 he, fun _ => rfl⟩

/-- C5: when the Gram matrix is a row or column vector with more than one
entry, `gram_matrix_stable` adds `1e-3` to the last entry exactly when
that entry equals `1` (all other entries matching `gram_matrix`), and
otherwise returns the Gram matrix completely unmodified. -/
theorem gram_stable_vector {α : Type} [Field α] [DecidableEq α]
    (k : Kern α) (X Y : MatrixG α) (h : X.rows = Y.rows)
    (hv : X.cols = 1 ∨ Y.cols = 1) (hs : 1 < X.cols * Y.cols) :
    ∃ G R, gram_matrix k X Y = .ok G ∧ gram_matrix_stable k X Y = .ok R ∧
      R.rows = X.cols ∧ R.cols = Y.cols ∧
      (G.entry (X.cols - 1) (Y.cols - 1) = 1 →
        R.entry (X.cols - 1) (Y.cols - 1) =
          G.entry (X.cols - 1) (Y.cols - 1) + 1 / 1000 ∧
        ∀ i j, ¬(i = X.cols - 1 ∧ j = Y.cols - 1) →
          R.entry i j = G.entry i j) ∧
      (G.entry (X.cols - 1) (Y.cols - 1) ≠ 1 → R = G) := by
  refine ⟨⟨X.cols, Y.cols, fun i j => k X.rows (X.col i) (Y.col j)⟩, _,
    gram_eq_ok k X Y h, gram_stable_eq_ok k X Y h, ?_⟩
  exact stabilize_vec ⟨X.cols, Y.cols, fun i j => k X.rows (X.col i) (Y.col j)⟩ hv.symm hs

/-- Witness for C5: a 2×1 Gram result (`X` a 1×2 matrix, `Y` a 1×1
matrix, linear kernel with bias `0`). -/
theorem gram_stable_vector_witness :
    ∃ G R, gram_matrix (linear_k (0 : ℚ)) (MatrixG.mk 1 2 (fun _ j => j + 1))
        (MatrixG.mk 1 1 (fun _ _ => 1)) = .ok G ∧
      gram_matrix_stable (linear_k (0 : ℚ)) (MatrixG.mk 1 2 (fun _ j => j + 1))
        (MatrixG.mk 1 1 (fun _ _ => 1)) = .ok R ∧
      R.rows = 2 ∧ R.cols = 1 ∧
      (G.entry 1 0 = 1 →
        R.entry 1 0 = G.entry 1 0 + 1 / 1000 ∧
        ∀ i j, ¬(i = 1 ∧ j = 0) → R.entry i j = G.entry i j) ∧
      (G.entry 1 0 ≠ 1 → R = G) :=
  gram_stable_vector (linear_k (0 : ℚ)) (MatrixG.mk 1 2 (fun _ j => j + 1))
    (MatrixG.mk 1 1 (fun _ _ => 1)) rfl (Or.inr rfl) (by decide)

/-- Embedding of `polynomial_kernel::k`: `pow(a * (x·y) + c, d)` with a
real-valued exponent `d` (members `_a`, `_c`, `_d`), i.e. a real power. -/
noncomputable def polynomial_k (a c d : ℝ) : Kern ℝ :=
  fun dim x y => (a * dotProd dim x y + c) ^ d

/-- Embedding of `gaussian_kernel::k`:
`exp(-1 * Σ (x i - y i)^2 / (2 * s * s))` with bandwidth `s` (member `_s`). -/
noncomputable def gaussian_k (s : ℝ) : Kern ℝ :=
  fun dim x y => Real.exp (-1 * (∑ i ∈ Finset.range dim, (x i - y i) ^ 2) / (2 * s * s))

/-- The accumulated scalar product is the finite sum of coordinate products. -/
theorem dotProd_eq_sum {α : Type} [Field α] (d : ℕ) (x y : ℕ → α) :
    dotProd d x y = ∑ i ∈ Finset.range d, x i * y i := by
  induction d with
  | zero => simp [dotProd]
  | succ n ih => simp [dotProd, Finset.sum_range_succ, ih]

/-- The scalar product is symmetric. -/
theorem dotProd_comm {α : Type} [Field α] (d : ℕ) (x y : ℕ → α) :
    dotProd d x y = dotProd d y x := by
  induction d with
  | zero => rfl
  | succ n ih => simp [dotProd, ih, mul_comm]

/-- C6: the Gaussian kernel's self-similarity is exactly `1` for every
vector and every bandwidth, because the squared distance vanishes. -/
theorem gaussian_self_similarity (s : ℝ) (d : ℕ) (x : ℕ → ℝ) :
    gaussian_k s d x x = 1 := by
  simp [gaussian_k, sub_self]

/-- C8: the linear kernel with bias `c` is exactly the dot product of the
two length-`d` vectors plus the bias. -/
theorem linear_k_dot {α : Type} [Field α] (c : α) (d : ℕ) (x y : ℕ → α) :
    linear_k c d x y = (∑ i ∈ Finset.range d, x i * y i) + c := by
  simp [linear_k, dotProd_eq_sum]

/-- C7: for every matrix `X` and each of the three kernel variants,
`gram_matrix(X, X)` is symmetric: entry `(i,j)` equals entry `(j,i)`. -/
theorem gram_self_symmetric (c a cp dp s : ℝ) (X : MatrixG ℝ) :
    ∃ R1 R2 R3,
      gram_matrix (linear_k c) X X = .ok R1 ∧
      gram_matrix (polynomial_k a cp dp) X X = .ok R2 ∧
      gram_matrix (gaussian_k s) X X = .ok R3 ∧
      (∀ i j, R1.entry i j = R1.entry j i) ∧
      (∀ i j, R2.entry i j = R2.entry j i) ∧
      (∀ i j, R3.entry i j = R3.entry j i) := by
  refine ⟨_, _, _, gram_eq_ok _ X X rfl, gram_eq_ok _ X X rfl, gram_eq_ok _ X X rfl,
    ?_, ?_, ?_⟩
  · intro i j
    simp [linear_k, dotProd_comm X.rows (X.col i) (X.col j)]
  · intro i j
    simp [polynomial_k, dotProd_comm X.rows (X.col i) (X.col j)]
  · intro i j
    have hsq : ∀ l, (X.col i l - X.col j l) ^ 2 = (X.col j l - X.col i l) ^ 2 := by
      intro l
      ring
    simp only [gaussian_k]
    congr 1
    rw [Finset.sum_congr rfl (fun l _ => hsq l)]

/-- The `linear_kernel` object: it stores only its bias `_c`. -/
structure linear_kernel where
  _c : ℚ

/-- State-passing embedding of the method `linear_kernel::k`: it returns
its value together with the object state after the call; the body
`return x_i.transpose() * y_j + _c;` assigns to no member. -/
def linear_kernel.k (self : linear_kernel) (d : ℕ) (x y : ℕ → ℚ) :
    ℚ × linear_kernel :=
  (dotProd d x y + self._c, self)

/-- The `polynomial_kernel` object: scale `_a`, bias `_c`, degree `_d`. -/
structure polynomial_kernel where
  _a : ℝ
  _c : ℝ
  _d : ℝ

/-- State-passing embedding of `polynomial_kernel::k`; the body computes
`pow(_a * dot + _c, _d)` and assigns to no member. -/
noncomputable def polynomial_kernel.k (self : polynomial_kernel)
    (dim : ℕ) (x y : ℕ → ℝ) : ℝ × polynomial_kernel :=
  ((self._a * dotProd dim x y + self._c) ^ self._d, self)

/-- The `gaussian_kernel` object: it stores only its bandwidth `_s`. -/
structure gaussian_kernel where
  _s : ℝ

/-- State-passing embedding of `gaussian_kernel::k`; the body computes
the exponential and assigns to no member. -/
noncomputable def gaussian_kernel.k (self : gaussian_kernel)
    (dim : ℕ) (x y : ℕ → ℝ) : ℝ × gaussian_kernel :=
  (gaussian_k self._s dim x y, self)

/-- State-passing embedding of the `gram_matrix` double loop: the kernel
object's state is threaded through the `M·N` calls to `k` in loop order
(`i` outer, `j` inner); the uninitialised `MatrixXd(M,N)` storage is
modelled as zeros, every in-range cell being overwritten by the loop. -/
def gram_run {σ α : Type} [Zero α]
    (kR : σ → ℕ → (ℕ → α) → (ℕ → α) → α × σ)
    (st : σ) (X Y : MatrixG α) : Except String (MatrixG α × σ) :=
  if X.rows ≠ Y.rows then
    .error dimMismatchMsg
  else
    let pairs := (List.range X.cols).flatMap
      (fun i => (List.range Y.cols).map (fun j => (i, j)))
    let step : ((ℕ → ℕ → α) × σ) → ℕ × ℕ → ((ℕ → ℕ → α) × σ) := fun acc p =>
      let r := kR acc.2 X.rows (X.col p.1) (Y.col p.2)
      (fun a b => if a = p.1 ∧ b = p.2 then r.1 else acc.1 a b, r.2)
    let fin := pairs.foldl step (fun _ _ => 0, st)
    .ok (⟨X.cols, Y.cols, fin.1⟩, fin.2)

/-- A fold whose step preserves the second component preserves it overall. -/
theorem foldl_snd_invariant {β σ γ : Type} (step : β × σ → γ → β × σ)
    (hstep : ∀ acc p, (step acc p).2 = acc.2) :
    ∀ (l : List γ) (acc : β × σ), (l.foldl step acc).2 = acc.2 := by
  intro l
  induction l with
  | nil => intro acc; rfl
  | cons p t ih =>
    intro acc
    rw [List.foldl_cons, ih, hstep]

/-- C9: kernel evaluation and Gram computation are deterministic and
side-effect-free: each kernel's `k` leaves the object unchanged; its
value depends only on the hyperparameters and the arguments; the Gram
loop, run with any state-preserving kernel, returns the kernel state it
started from; and `gram_matrix` / `gram_matrix_stable` on equal inputs
give equal results. -/
theorem kernel_ops_pure :
    (∀ (K : linear_kernel) (d : ℕ) (x y : ℕ → ℚ), (K.k d x y).2 = K) ∧
    (∀ (K : polynomial_kernel) (dim : ℕ) (x y : ℕ → ℝ), (K.k dim x y).2 = K) ∧
    (∀ (K : gaussian_kernel) (dim : ℕ) (x y : ℕ → ℝ), (K.k dim x y).2 = K) ∧
    (∀ (K1 K2 : linear_kernel), K1._c = K2._c →
      ∀ d x y, (K1.k d x y).1 = (K2.k d x y).1) ∧
    (∀ (K1 K2 : polynomial_kernel), K1._a = K2._a → K1._c = K2._c → K1._d = K2._d →
      ∀ dim x y, (K1.k dim x y).1 = (K2.k dim x y).1) ∧
    (∀ (K1 K2 : gaussian_kernel), K1._s = K2._s →
      ∀ dim x y, (K1.k dim x y).1 = (K2.k dim x y).1) ∧
    (∀ {σ : Type} (kR : σ → ℕ → (ℕ → ℚ) → (ℕ → ℚ) → ℚ × σ),
      (∀ st d x y, (kR st d x y).2 = st) →
      ∀ (st : σ) (X Y : MatrixG ℚ),
        Except.map Prod.snd (gram_run kR st X Y) =
          Except.map (fun _ => st) (gram_run kR st X Y)) ∧
    (∀ (k : Kern ℚ) (X1 X2 Y1 Y2 : MatrixG ℚ), X1 = X2 → Y1 = Y2 →
      gram_matrix k X1 Y1 = gram_matrix k X2 Y2 ∧
      gram_matrix_stable k X1 Y1 = gram_matrix_stable k X2 Y2) := by
  refine ⟨fun _ _ _ _ => rfl, fun _ _ _ _ => rfl, fun _ _ _ _ => rfl,
    ?_, ?_, ?_, ?_, ?_⟩
  · intro K1 K2 hc d x y
    simp [linear_kernel.k, hc]
  · intro K1 K2 ha hc hd dim x y
    simp [polynomial_kernel.k, ha, hc, hd]
  · intro K1 K2 hs dim x y
    simp [gaussian_kernel.k, hs]
  · intro σ kR hp st X Y
    rw [gram_run]
    by_cases h : X.rows = Y.rows
    · rw [if_neg (by simp [h])]
      have hfin := foldl_snd_invariant
        (fun (acc : (ℕ → ℕ → ℚ) × σ) (p : ℕ × ℕ) =>
          let r := kR acc.2 X.rows (X.col p.1) (Y.col p.2)
          (fun a b => if a = p.1 ∧ b = p.2 then r.1 else acc.1 a b, r.2))
        (fun acc p => hp acc.2 X.rows (X.col p.1) (Y.col p.2))
        ((List.range X.cols).flatMap (fun i => (List.range Y.cols).map (fun j => (i, j))))
        (fun _ _ => 0, st)
      simp only [Except.map]
      rw [hfin]
    · rw [if_pos h]
      rfl
  · intro k X1 X2 Y1 Y2 hX hY
    rw [hX, hY]
    exact ⟨rfl, rfl⟩

/-- Witness for C9: the purity statement applied to concrete kernels,
inputs, and a concrete state-preserving kernel function. -/
theorem kernel_ops_pure_witness :
    ((⟨5⟩ : linear_kernel).k 2 (fun _ => 1) (fun _ => 1)).1 =
      ((⟨5⟩ : linear_kernel).k 2 (fun _ => 1) (fun _ => 1)).1 ∧
    ((⟨5⟩ : linear_kernel).k 2 (fun _ => 1) (fun _ => 1)).2 = (⟨5⟩ : linear_kernel) ∧
    Except.map Prod.snd (gram_run (fun (st : ℚ) (d : ℕ) (x y : ℕ → ℚ) => (dotProd d x y, st))
        (7 : ℚ) (MatrixG.mk 1 1 (fun _ _ => (1 : ℚ))) (MatrixG.mk 1 1 (fun _ _ => (1 : ℚ)))) =
      Except.map (fun _ => (7 : ℚ))
        (gram_run (fun (st : ℚ) (d : ℕ) (x y : ℕ → ℚ) => (dotProd d x y, st))
          (7 : ℚ) (MatrixG.mk 1 1 (fun _ _ => (1 : ℚ))) (MatrixG.mk 1 1 (fun _ _ => (1 : ℚ)))) :=
  ⟨kernel_ops_pure.2.2.2.1 ⟨5⟩ ⟨5⟩ rfl 2 (fun _ => 1) (fun _ => 1),
   kernel_ops_pure.1 ⟨5⟩ 2 (fun _ => 1) (fun _ => 1),
   kernel_ops_pure.2.2.2.2.2.2.1 (fun (st : ℚ) (d : ℕ) (x y : ℕ → ℚ) => (dotProd d x y, st))
     (fun _ _ _ _ => rfl) (7 : ℚ) (MatrixG.mk 1 1 (fun _ _ => (1 : ℚ)))
     (MatrixG.mk 1 1 (fun _ _ => (1 : ℚ)))⟩

/-- The cells written by the `gram_matrix` double loop: `result(i, j)`
for `i` in `[0, M)` and `j` in `[0, N)`. -/
def gramWrites {α : Type} (X Y : MatrixG α) : List (ℕ × ℕ) :=
  (List.range X.cols).flatMap (fun i => (List.range Y.cols).map (fun j => (i, j)))

/-- The coefficient accesses (column-major linear indices, as integers,
since `size() - 1` can be `-1`) performed by the shape dispatch of
`gram_matrix_stable` on the Gram result `R`, following the source's
short-circuit evaluation order:
* `result.size() == 1` is checked first; only when it holds is
  `result(0, 0)` read, and on the `== 1` branch written back;
* the `M>1, N>1` branch reads and writes every coefficient (the
  element-wise matrix addition);
* the row/column-vector branch reads `result(size() - 1)` whenever
  `cols() == 1 || rows() == 1`, and writes it back when it equals `1`;
* the final branch touches nothing. -/
def stabilizeAccesses {α : Type} [Field α] [DecidableEq α] (R : MatrixG α) : List ℤ :=
  (if R.size = 1 then [(0 : ℤ)] else []) ++
  (if R.size = 1 ∧ R.entry 0 0 = 1 then [(0 : ℤ)]
   else if 1 < R.rows ∧ 1 < R.cols then (List.range R.size).map (fun m : ℕ => (m : ℤ))
   else if R.cols = 1 ∨ R.rows = 1 then
     ((R.size : ℤ) - 1) ::
       (if R.entry (R.linRow (R.size - 1)) (R.linCol (R.size - 1)) = 1 then
         [(R.size : ℤ) - 1] else [])
   else [])

/-- Every access recorded by `stabilizeAccesses` is within bounds,
except on the two degenerate shapes `0×1` and `1×0`. -/
theorem stabilizeAccesses_in_bounds {α : Type} [Field α] [DecidableEq α]
    (R : MatrixG α)
    (hdeg : ¬((R.rows = 0 ∧ R.cols = 1) ∨ (R.rows = 1 ∧ R.cols = 0))) :
    ∀ l ∈ stabilizeAccesses R, 0 ≤ l ∧ l < (R.size : ℤ) := by
  intro l hl
  have hpos : (R.cols = 1 ∨ R.rows = 1) → 1 ≤ R.size := by
    have hsz : R.size = R.rows * R.cols := rfl
    rintro (hc | hr)
    · have h0 : R.rows ≠ 0 := fun h0 => hdeg (Or.inl ⟨h0, hc⟩)
      rw [hc] at hsz
      omega
    · have h0 : R.cols ≠ 0 := fun h0 => hdeg (Or.inr ⟨hr, h0⟩)
      rw [hr] at hsz
      omega
  simp only [stabilizeAccesses, List.mem_append] at hl
  rcases hl with hl | hl
  · split_ifs at hl with hs
    · simp only [List.mem_singleton] at hl
      subst hl
      omega
    · simp at hl
  · split_ifs at hl with h1 h2 h3 h4
    · obtain ⟨hs1, _⟩ := h1
      simp only [List.mem_singleton] at hl
      subst hl
      omega
    · simp only [List.mem_map, List.mem_range] at hl
      obtain ⟨m, hm, rfl⟩ := hl
      constructor
      · exact_mod_cast Nat.zero_le m
      · exact_mod_cast hm
    · have hp := hpos h3
      simp only [List.mem_cons, List.mem_singleton, List.not_mem_nil, or_false] at hl
      rcases hl with rfl | rfl
      · omega
      · omega
    · have hp := hpos h3
      simp only [List.mem_cons, List.not_mem_nil, or_false] at hl
      subst hl
      omega
    · simp at hl

/-- Counterexample to C10 as stated: for `X` with `0` columns and `Y`
with `1` column (equal row counts, an empty `0×1` Gram result), the
row/column-vector branch of `gram_matrix_stable` reads linear index
`size() - 1 = -1`, which is out of bounds. -/
theorem stable_access_out_of_bounds_cex :
    Except.map stabilizeAccesses
      (gram_matrix (linear_k (0 : ℚ)) (MatrixG.mk 1 0 (fun _ _ => 0))
        (MatrixG.mk 1 1 (fun _ _ => 0))) = .ok [(-1 : ℤ)] ∧
    ¬(0 ≤ (-1 : ℤ)) := by
  constructor
  · norm_num [gram_matrix, stabilizeAccesses, MatrixG.size, MatrixG.linRow, MatrixG.linCol,
      MatrixG.col, linear_k, dotProd, Except.map]
  · decide

/-- C10 (amended): with equal row counts, and excluding the two
degenerate shapes `(M, N) = (0, 1)` and `(1, 0)` whose empty Gram result
makes the row/column-vector branch read index `-1`, every coefficient
access of `gram_matrix` and of the stabilisation dispatch is within
bounds. -/
theorem gram_accesses_in_bounds (k : Kern ℚ) (X Y : MatrixG ℚ)
    (h : X.rows = Y.rows)
    (hdeg : ¬((X.cols = 0 ∧ Y.cols = 1) ∨ (X.cols = 1 ∧ Y.cols = 0))) :
    ∃ G, gram_matrix k X Y = .ok G ∧
      (∀ p ∈ gramWrites X Y, p.1 < X.cols ∧ p.2 < Y.cols) ∧
      (∀ l ∈ stabilizeAccesses G, 0 ≤ l ∧ l < (G.size : ℤ)) := by
  refine ⟨⟨X.cols, Y.cols, fun i j => k X.rows (X.col i) (Y.col j)⟩,
    gram_eq_ok k X Y h, ?_, ?_⟩
  · intro p hp
    simp only [gramWrites, List.mem_flatMap, List.mem_map, List.mem_range] at hp
    obtain ⟨i, hi, j, hj, rfl⟩ := hp
    exact ⟨hi, hj⟩
  · exact stabilizeAccesses_in_bounds
      ⟨X.cols, Y.cols, fun i j => k X.rows (X.col i) (Y.col j)⟩ hdeg

/-- Witness for the amended C10: the in-bounds statement applied to a
concrete 1×1 self Gram computation. -/
theorem gram_accesses_in_bounds_witness :
    ∃ G, gram_matrix (linear_k (0 : ℚ)) (MatrixG.mk 1 1 (fun _ _ => 1))
        (MatrixG.mk 1 1 (fun _ _ => 1)) = .ok G ∧
      (∀ p ∈ gramWrites (MatrixG.mk 1 1 (fun _ _ => (1 : ℚ)))
          (MatrixG.mk 1 1 (fun _ _ => (1 : ℚ))), p.1 < 1 ∧ p.2 < 1) ∧
      (∀ l ∈ stabilizeAccesses G, 0 ≤ l ∧ l < (G.size : ℤ)) :=
  gram_accesses_in_bounds (linear_k (0 : ℚ)) (MatrixG.mk 1 1 (fun _ _ => 1))
    (MatrixG.mk 1 1 (fun _ _ => 1)) rfl (by decide)

end MLProj
